import Mathlib

/-!
Verification development for the keyword-notification bot (`src/bot.py`).

Texts are modelled as lists of Unicode code points (`List Nat`).  The regular
expressions produced by `_compile_keyword_pattern` are embedded by their
matching semantics (a backtracking regex matches iff some choice of
alternatives succeeds, so the embedding is existential over those choices).

Modelling conventions, noted where they matter:
* `re.IGNORECASE` is modelled by ASCII lowercasing (`lowerN`); the Hangul
  characters involved have no case.
* Python's `\w` (Unicode word character) is modelled on the fragment of the
  character set actually exercised by this program: ASCII alphanumerics,
  underscore, and the Hangul-syllable block U+AC00..U+D7A3.
-/

namespace KeywordBot

/-- ASCII lowercasing of one code point (model of case-insensitive matching). -/
def lowerN (n : Nat) : Nat := if 65 ≤ n ∧ n ≤ 90 then n + 32 else n

/-- ASCII lowercasing of a text. -/
def lowerL (l : List Nat) : List Nat := l.map lowerN

/-- Word character (`\w`): ASCII alphanumeric, underscore, or Hangul syllable. -/
def isWordN (n : Nat) : Bool :=
  decide ((48 ≤ n ∧ n ≤ 57) ∨ (65 ≤ n ∧ n ≤ 90) ∨ (97 ≤ n ∧ n ≤ 122) ∨
    n = 95 ∨ (0xAC00 ≤ n ∧ n ≤ 0xD7A3))

/-- Code points of a Lean string literal (used to write concrete texts). -/
def strN (s : String) : List Nat := s.data.map Char.toNat

/-- Is the code point a Hangul syllable (the block `[가-힣]`)? -/
def isHangulN (n : Nat) : Bool := decide (0xAC00 ≤ n ∧ n ≤ 0xD7A3)

/-- `re.search(r"[가-힣]", keyword)`: does the keyword contain a Hangul
syllable?  (Script detection in `_compile_keyword_pattern`.) -/
def containsHangul (k : List Nat) : Bool := k.any isHangulN

/-- The character of `t` at index `j`, word-classified; out of range counts as
a non-word position (as at the ends of a string for `\b`, `(?<!\w)`, `(?!\w)`). -/
def isWordIdx (t : List Nat) (j : Nat) : Bool :=
  match t[j]? with
  | some c => isWordN c
  | none => false

/-- `\b` of the host regex engine at position `i` of `t` (0 ≤ i ≤ |t|):
a word boundary holds when exactly one of the two surrounding positions
carries a word character. -/
def bnd (t : List Nat) (i : Nat) : Bool :=
  xor (if i = 0 then false else isWordIdx t (i - 1)) (isWordIdx t i)

/-- The length-`n` segment of `t` starting at index `i`. -/
def seg (t : List Nat) (i n : Nat) : List Nat := (t.drop i).take n

/-- Case-insensitive equality of texts. -/
def ciEqb (a b : List Nat) : Bool := decide (lowerL a = lowerL b)

/-- Semantics of the plain-word pattern `re.compile(rf"\b{escaped}\b",
re.IGNORECASE)`: the keyword occurs (case-insensitively) at some position
with a word boundary on each side. -/
def plainWordMatch (k t : List Nat) : Bool :=
  (List.range (t.length + 1)).any fun i =>
    ciEqb (seg t i k.length) k && bnd t i && bnd t (i + k.length)

/-- The tuple `KOREAN_PARTICLES` from `src/bot.py`, in source order.  (The
compiled pattern alternates them sorted longest-first; for the Boolean
matching semantics only the set matters, since the regex engine backtracks
over all alternatives.) -/
def KOREAN_PARTICLES : List (List Nat) :=
  [strN "께서", strN "에서부터", strN "으로부터", strN "로부터", strN "에게서",
   strN "한테서", strN "으로써", strN "로써", strN "으로서", strN "로서",
   strN "이라고는", strN "라고는", strN "이라고", strN "라고", strN "이나마",
   strN "나마", strN "이라도", strN "라도", strN "이든지", strN "든지",
   strN "이든", strN "든", strN "이랑", strN "랑", strN "이나", strN "나",
   strN "이며", strN "하며", strN "하고", strN "이자", strN "자", strN "에게",
   strN "한테", strN "에서", strN "으로", strN "로", strN "까지", strN "부터",
   strN "밖에", strN "뿐", strN "조차", strN "마저", strN "마다", strN "만큼",
   strN "쯤", strN "씩", strN "만치", strN "같이", strN "처럼", strN "대로",
   strN "보다", strN "커녕", strN "도", strN "만", strN "의", strN "과",
   strN "와", strN "을", strN "를", strN "은", strN "는", strN "이",
   strN "가", strN "에", strN "께"]

/-- Case-insensitive "is `p` a prefix of `t`". -/
def ciPrefix (p t : List Nat) : Bool := List.isPrefixOf (lowerL p) (lowerL t)

/-- `(?!\w)` at the head of the remaining text. -/
def noWordHead (t : List Nat) : Bool :=
  match t with
  | [] => true
  | c :: _ => !isWordN c

/-- Semantics of `(?:{particles}){0,fuel}(?!\w)` applied to the remaining
text after the keyword: either the lookahead already holds, or (with fuel
left) some particle is a prefix of the remainder and the rest succeeds (the
backtracking engine tries every alternative, so matching is existential). -/
def suffixOk : Nat → List Nat → Bool
  | 0, t => noWordHead t
  | f + 1, t =>
    noWordHead t || KOREAN_PARTICLES.any fun p => ciPrefix p t && suffixOk f (t.drop p.length)

/-- `(?<!\w)` at position `i`. -/
def noWordBefore (t : List Nat) (i : Nat) : Bool :=
  if i = 0 then true else !isWordIdx t (i - 1)

/-- Semantics of the agglutinative pattern
`re.compile(rf"(?<!\w){escaped}(?:{_KOREAN_PARTICLE_PATTERN}){{0,3}}(?!\w)",
re.IGNORECASE)`. -/
def hangulMatch (k t : List Nat) : Bool :=
  (List.range (t.length + 1)).any fun i =>
    noWordBefore t i && ciPrefix k (t.drop i) && suffixOk 3 (t.drop (i + k.length))

/-- `_compile_keyword_pattern` followed by `pattern.search(text)`: compilation
chooses the strategy by script detection; the compiled matcher is pure, so
compiling and searching is a function of the two texts. -/
def compileMatch (k t : List Nat) : Bool :=
  if containsHangul k then hangulMatch k t else plainWordMatch k t

/-- Can `s` be written as the concatenation of at most `fuel` recognized
particles (case-insensitively)?  Used to state "has a particle
decomposition". -/
def decompOk : Nat → List Nat → Bool
  | 0, s => s.isEmpty
  | f + 1, s =>
    s.isEmpty || KOREAN_PARTICLES.any fun p => ciPrefix p s && decompOk f (s.drop p.length)

/-- The spec's plain-word property, written from the spec's words: the text
contains the keyword as a maximal run of word characters equal to the keyword
case-insensitively (the occupied segment consists of word characters and is
bounded by the text's ends or non-word characters). -/
def specPlainOccur (k t : List Nat) : Prop :=
  ∃ i < t.length + 1, i + k.length ≤ t.length ∧
    lowerL (seg t i k.length) = lowerL k ∧
    (∀ c ∈ seg t i k.length, isWordN c = true) ∧
    (i = 0 ∨ isWordIdx t (i - 1) = false) ∧
    (i + k.length = t.length ∨ isWordIdx t (i + k.length) = false)

instance (k t : List Nat) : Decidable (specPlainOccur k t) := by
  unfold specPlainOccur; infer_instance

/-! ## Match engine (`on_message`, lines 531-568) -/

/-- One row of the `keywords` table as returned by `fetch_keywords_for_guild`:
`(user_id, keyword, channel_id)`.  `channel_id` is a string, either the
decimal channel id or the sentinel `"GLOBAL"`. -/
structure Sub where
  user : Nat
  kw : List Nat
  chan : List Nat
  deriving DecidableEq

/-- The attributes of a `discord.Message` consumed by the match engine. -/
structure Msg where
  guild : Nat
  author : Nat
  chan : Nat
  content : List Nat
  deriving DecidableEq

/-- The scope sentinel `"GLOBAL"`. -/
def GLOBALSTR : List Nat := strN "GLOBAL"

/-- `str(message.channel.id)`. -/
def natStr (n : Nat) : List Nat := strN (toString n)

/-- `set.add`: insertion preserving set semantics (order is the insertion
order; Python iterates a `set` in unspecified order, which no claim relies
on). -/
def insertK (ks : List (List Nat)) (k : List Nat) : List (List Nat) :=
  if k ∈ ks then ks else ks ++ [k]

/-- `matched.setdefault(user_id, set()).add(keyword)` on the insertion-ordered
mapping from user id to matched keywords. -/
def addMatch : List (Nat × List (List Nat)) → Nat → List Nat → List (Nat × List (List Nat))
  | [], u, k => [(u, [k])]
  | (v, ks) :: rest, u, k =>
    if v = u then (v, insertK ks k) :: rest else (v, ks) :: addMatch rest u k

/-- State of the matching loop: the `patterns` cache (represented by the set
of keyword texts compiled so far; compilation is pure, so a cached pattern is
interchangeable with a fresh one) and the `matched` mapping. -/
structure MState where
  cks : List (List Nat)
  matched : List (Nat × List (List Nat))
  deriving DecidableEq

/-- One iteration of the `for user_id, keyword, channel_id in rows` loop:
skip self-matches, then skip foreign-channel rows, then compile (with cache)
and search, recording a hit in `matched`. -/
def engineStep (msg : Msg) (st : MState) (s : Sub) : MState :=
  if msg.author = s.user then st
  else if s.chan ≠ GLOBALSTR ∧ natStr msg.chan ≠ s.chan then st
  else
    let cks := if s.kw ∈ st.cks then st.cks else st.cks ++ [s.kw]
    if compileMatch s.kw msg.content then ⟨cks, addMatch st.matched s.user s.kw⟩
    else ⟨cks, st.matched⟩

/-- The whole matching loop over the subscription rows, from empty caches. -/
def matchEngine (rows : List Sub) (msg : Msg) : MState :=
  rows.foldl (engineStep msg) ⟨[], []⟩

/-- `(u, k)` is in the Match Result `m`. -/
def memMatch (u : Nat) (k : List Nat) (m : List (Nat × List (List Nat))) : Prop :=
  ∃ e ∈ m, e.1 = u ∧ k ∈ e.2

instance (u : Nat) (k : List Nat) (m : List (Nat × List (List Nat))) :
    Decidable (memMatch u k m) := by
  unfold memMatch; infer_instance

/-! ## Recipient resolver & notifier (`on_message` lines 570-625, `_get_member`) -/

/-- Result of `guild.fetch_member` / `bot.fetch_user`: found, or the
exceptions `discord.NotFound` / `discord.Forbidden`. -/
inductive FetchRes where
  | found (v : Nat)
  | notFound
  | forbidden
  deriving DecidableEq

/-- The external collaborators of the dispatch phase, as oracles.  Members and
users are identified by opaque numerals. -/
structure Env where
  getMember : Nat → Option Nat
  fetchMember : Nat → FetchRes
  canView : Nat → Bool
  getUser : Nat → Option Nat
  fetchUser : Nat → FetchRes
  dmOk : Nat → List Nat → Bool

/-- `_get_member`: local `get_member`, then `fetch_member` with `NotFound`
and `Forbidden` both mapped to absence. -/
def resolveMemberFull (env : Env) (uid : Nat) : Option Nat :=
  match env.getMember uid with
  | some m => some m
  | none =>
    match env.fetchMember uid with
    | .found m => some m
    | .notFound => none
    | .forbidden => none

/-- `bot.get_user` then `bot.fetch_user` with `NotFound` / `Forbidden`
mapped to absence (lines 592-599). -/
def resolveUserFull (env : Env) (uid : Nat) : Option Nat :=
  match env.getUser uid with
  | some u => some u
  | none =>
    match env.fetchUser uid with
    | .found u => some u
    | .notFound => none
    | .forbidden => none

/-- Observable external calls of the dispatch phase, tagged by the owner they
are made for. -/
inductive Event where
  | memberLookup (uid : Nat)
  | userLookup (uid : Nat)
  | dmAttempt (uid : Nat) (kw : List Nat)
  deriving DecidableEq

/-- The owner an event belongs to. -/
def eventUid : Event → Nat
  | .memberLookup u => u
  | .userLookup u => u
  | .dmAttempt u _ => u

/-- A per-pass cache (`member_cache` / `user_cache`). -/
abbrev Cache := List (Nat × Option Nat)

/-- `cache.get(uid)`: `none` both when the key is absent and when the stored
value is `None` (exactly Python's `dict.get` with a default of `None`). -/
def flatGet (c : Cache) (uid : Nat) : Option Nat :=
  match List.lookup uid c with
  | some v => v
  | none => none

/-- The `for keyword in keywords` delivery loop: each keyword triggers one
`user.send` attempt; a `discord.Forbidden` (`env.dmOk u kw = false`) hits
`break`. -/
def sendKws (env : Env) (u uid : Nat) : List (List Nat) → List Event
  | [] => []
  | kw :: rest =>
    Event.dmAttempt uid kw :: (if env.dmOk u kw then sendKws env u uid rest else [])

/-- The body of `for user_id, keywords in matched.items()` (lines 573-625):
member resolution through `member_cache`, the view-permission gate, user
resolution through `user_cache`, then the delivery loop.  Returns the updated
caches and the external calls made. -/
def ownerStep (env : Env) (mc uc : Cache) (uid : Nat) (kws : List (List Nat)) :
    Cache × Cache × List Event :=
  let memRes : Option Nat × Cache × List Event :=
    match flatGet mc uid with
    | some m => (some m, mc, [])
    | none => ((resolveMemberFull env uid), ((uid, resolveMemberFull env uid) :: mc),
        [Event.memberLookup uid])
  match memRes with
  | (none, mc', ev1) => (mc', uc, ev1)
  | (some m, mc', ev1) =>
    if env.canView m = false then (mc', uc, ev1)
    else
      let usrRes : Option Nat × Cache × List Event :=
        match flatGet uc uid with
        | some u => (some u, uc, [])
        | none => ((resolveUserFull env uid), ((uid, resolveUserFull env uid) :: uc),
            [Event.userLookup uid])
      match usrRes with
      | (none, uc', ev2) => (mc', uc', ev1 ++ ev2)
      | (some u, uc', ev2) => (mc', uc', ev1 ++ ev2 ++ sendKws env u uid kws)

/-- The dispatch loop over all matched owners, threading the two caches. -/
def runOwners (env : Env) (mc uc : Cache) :
    List (Nat × List (List Nat)) → Cache × Cache × List Event
  | [] => (mc, uc, [])
  | (uid, kws) :: rest =>
    let s := ownerStep env mc uc uid kws
    let r := runOwners env s.1 s.2.1 rest
    (r.1, r.2.1, s.2.2 ++ r.2.2)

/-- Dispatch of a Match Result, from the empty per-pass caches. -/
def dispatch (env : Env) (m : List (Nat × List (List Nat))) :
    Cache × Cache × List Event :=
  runOwners env [] [] m

/-- The external calls of a dispatch pass. -/
def dispatchTrace (env : Env) (m : List (Nat × List (List Nat))) : List Event :=
  (dispatch env m).2.2

/-! ## Subscription store (`init_db`, `add_keyword`, `keyword_exists`,
`count_keywords`, `remove_keyword`, and the two subscribe handlers) -/

/-- A row of the `keywords` table (the `id` / `created_at` columns play no
role in any claim).  The `keyword` column is declared `COLLATE NOCASE`, i.e.
ASCII-case-insensitive. -/
structure Row where
  user : Nat
  kw : List Nat
  chan : List Nat
  guild : Nat
  deriving DecidableEq

/-- Equality under the unique index `idx_keywords_unique` on
`(user_id, keyword, channel_id, guild_id)`: `keyword` compares NOCASE, the
other columns exactly. -/
def sameKey (a b : Row) : Bool :=
  decide (a.user = b.user ∧ lowerL a.kw = lowerL b.kw ∧ a.chan = b.chan ∧ a.guild = b.guild)

/-- `add_keyword`: `INSERT OR IGNORE` against the unique index; returns the
new table and whether a row was inserted (`cur.rowcount > 0`). -/
def dbAdd (st : List Row) (r : Row) : List Row × Bool :=
  if st.any (fun x => sameKey x r) then (st, false) else (st ++ [r], true)

/-- `keyword_exists`: `SELECT 1 ... WHERE user_id = ? AND keyword = ? AND
channel_id = ? AND guild_id = ?` (keyword compares NOCASE). -/
def keywordExists (st : List Row) (user : Nat) (kw chan : List Nat) (guild : Nat) : Bool :=
  st.any fun r =>
    decide (r.user = user ∧ lowerL r.kw = lowerL kw ∧ r.chan = chan ∧ r.guild = guild)

/-- `count_keywords`: `SELECT COUNT(*) ... WHERE user_id = ? AND guild_id = ?`
(no channel filter: both scopes count). -/
def countKeywords (st : List Row) (user guild : Nat) : Nat :=
  (st.filter fun r => decide (r.user = user ∧ r.guild = guild)).length

/-- `remove_keyword`: `DELETE ... WHERE user_id = ? AND guild_id = ? AND
keyword = ?` (keyword NOCASE; all scopes removed). -/
def removeKeyword (st : List Row) (user guild : Nat) (kw : List Nat) : List Row :=
  st.filter fun r => !decide (r.user = user ∧ r.guild = guild ∧ lowerL r.kw = lowerL kw)

/-- Python whitespace stripped by `str.strip()` (ASCII fragment). -/
def isSpaceN (n : Nat) : Bool := decide (n = 32 ∨ (9 ≤ n ∧ n ≤ 13))

/-- `keyword.strip()`. -/
def stripL (l : List Nat) : List Nat :=
  ((l.dropWhile isSpaceN).reverse.dropWhile isSpaceN).reverse

/-- The user-visible outcome of a subscribe command. -/
inductive Outcome where
  | emptyKeyword
  | alreadyTracked
  | limitReached
  | added
  deriving DecidableEq

/-- The store-relevant tail of `add_keyword_channel` (after the guild /
channel-validity / permission guards): strip the keyword, report an empty
keyword, report an already-tracked keyword, enforce the 10-per-user-per-guild
limit, otherwise insert. -/
def addKeywordChannelCmd (st : List Row) (user guild : Nat) (kw chan : List Nat) :
    List Row × Outcome :=
  let kw := stripL kw
  if kw = [] then (st, .emptyKeyword)
  else if keywordExists st user kw chan guild then (st, .alreadyTracked)
  else if 10 ≤ countKeywords st user guild then (st, .limitReached)
  else
    let r := dbAdd st ⟨user, kw, chan, guild⟩
    (r.1, if r.2 then .added else .alreadyTracked)

/-- The store-relevant tail of `add_keyword_server`: identical, with the
`"GLOBAL"` sentinel as the channel. -/
def addKeywordServerCmd (st : List Row) (user guild : Nat) (kw : List Nat) :
    List Row × Outcome :=
  let kw := stripL kw
  if kw = [] then (st, .emptyKeyword)
  else if keywordExists st user kw GLOBALSTR guild then (st, .alreadyTracked)
  else if 10 ≤ countKeywords st user guild then (st, .limitReached)
  else
    let r := dbAdd st ⟨user, kw, GLOBALSTR, guild⟩
    (r.1, if r.2 then .added else .alreadyTracked)

/-- A store-mutating operation of the bot. -/
inductive Op where
  | addCh (user guild : Nat) (kw chan : List Nat)
  | addSrv (user guild : Nat) (kw : List Nat)
  | remove (user guild : Nat) (kw : List Nat)

/-- Apply one operation to the store. -/
def applyOp (st : List Row) : Op → List Row
  | .addCh user guild kw chan => (addKeywordChannelCmd st user guild kw chan).1
  | .addSrv user guild kw => (addKeywordServerCmd st user guild kw).1
  | .remove user guild kw => removeKeyword st user guild kw

/-- No two rows of the store collide on the unique index. -/
def NoDupKey (st : List Row) : Prop :=
  st.Pairwise fun a b => sameKey a b = false

end KeywordBot

namespace KeywordBot

-- Sanity checks of the matcher embedding on the spec's own examples.
example : compileMatch (strN "cat") (strN "Cat!") = true := by decide
example : compileMatch (strN "cat") (strN "a cat.") = true := by decide
example : compileMatch (strN "cat") (strN "category") = false := by decide
example : compileMatch (strN "cat") (strN "bobcat") = false := by decide
example : compileMatch (strN "사과") (strN "사과는 맛있다") = true := by decide
example : compileMatch (strN "사과") (strN "사과주스") = false := by decide
example : compileMatch (strN "세일") (strN "세일이에요") = false := by decide
example : compileMatch (strN "사과") (strN "사과는를") = true := by decide

/-! ## Store lemmas and claims C9, C10 -/

lemma dbAdd_nodup {st : List Row} (h : NoDupKey st) (r : Row) :
    NoDupKey (dbAdd st r).1 := by
  unfold dbAdd
  by_cases hany : st.any (fun x => sameKey x r) = true
  · rw [if_pos hany]
    exact h
  · rw [if_neg hany]
    dsimp only
    unfold NoDupKey
    rw [List.pairwise_append]
    refine ⟨h, List.pairwise_singleton _ _, ?_⟩
    intro a ha b hb
    simp only [List.mem_singleton] at hb
    subst hb
    simp only [List.any_eq_true, not_exists, not_and] at hany
    exact Bool.eq_false_iff.mpr fun hc => hany a ha hc

lemma nodup_filter {st : List Row} (h : NoDupKey st) (p : Row → Bool) :
    NoDupKey (st.filter p) :=
  List.Pairwise.sublist (List.filter_sublist st) h

lemma addCh_nodup {st : List Row} (h : NoDupKey st) (user guild : Nat) (kw chan : List Nat) :
    NoDupKey (addKeywordChannelCmd st user guild kw chan).1 := by
  by_cases h1 : stripL kw = []
  · simpa [addKeywordChannelCmd, h1] using h
  by_cases h2 : keywordExists st user (stripL kw) chan guild = true
  · simpa [addKeywordChannelCmd, h1, h2] using h
  by_cases h3 : 10 ≤ countKeywords st user guild
  · simpa [addKeywordChannelCmd, h1, h2, h3] using h
  · simpa [addKeywordChannelCmd, h1, h2, h3] using
      dbAdd_nodup h ⟨user, stripL kw, chan, guild⟩

lemma addSrv_nodup {st : List Row} (h : NoDupKey st) (user guild : Nat) (kw : List Nat) :
    NoDupKey (addKeywordServerCmd st user guild kw).1 := by
  by_cases h1 : stripL kw = []
  · simpa [addKeywordServerCmd, h1] using h
  by_cases h2 : keywordExists st user (stripL kw) GLOBALSTR guild = true
  · simpa [addKeywordServerCmd, h1, h2] using h
  by_cases h3 : 10 ≤ countKeywords st user guild
  · simpa [addKeywordServerCmd, h1, h2, h3] using h
  · simpa [addKeywordServerCmd, h1, h2, h3] using
      dbAdd_nodup h ⟨user, stripL kw, GLOBALSTR, guild⟩

lemma applyOp_nodup {st : List Row} (h : NoDupKey st) (op : Op) :
    NoDupKey (applyOp st op) := by
  cases op with
  | addCh user guild kw chan => exact addCh_nodup h user guild kw chan
  | addSrv user guild kw => exact addSrv_nodup h user guild kw
  | remove user guild kw => exact nodup_filter h _

lemma foldl_nodup {st : List Row} (h : NoDupKey st) (ops : List Op) :
    NoDupKey (ops.foldl applyOp st) := by
  induction ops generalizing st with
  | nil => exact h
  | cons op rest ih => exact ih (applyOp_nodup h op)

/-- C9: the store never holds two rows agreeing on
`(owner, keyword NOCASE, scope, server)`: every store reachable from the
empty one by the bot's operations satisfies the unique-index invariant;
`INSERT OR IGNORE` on a colliding row is a no-op reporting no insertion; and
the subscribe handler reports a colliding registration as already tracked
with the store unchanged. -/
theorem C9_unique_no_dup :
    (∀ ops : List Op, NoDupKey (ops.foldl applyOp [])) ∧
    (∀ (st : List Row) (r : Row), st.any (fun x => sameKey x r) = true →
      dbAdd st r = (st, false)) ∧
    (∀ (st : List Row) (user guild : Nat) (kw chan : List Nat),
      stripL kw ≠ [] →
      keywordExists st user (stripL kw) chan guild = true →
      addKeywordChannelCmd st user guild kw chan = (st, .alreadyTracked)) := by
  refine ⟨fun ops => foldl_nodup List.Pairwise.nil ops, ?_, ?_⟩
  · intro st r h
    unfold dbAdd
    simp [h]
  · intro st user guild kw chan hne hex
    unfold addKeywordChannelCmd
    simp [hne, hex]

/-- Witness for C9 at a concrete store: inserting an existing subscription
(case-insensitively colliding) is a no-op reported as not inserted. -/
theorem C9_unique_no_dup_witness :
    dbAdd [⟨1, strN "Cat", strN "GLOBAL", 7⟩] ⟨1, strN "cat", strN "GLOBAL", 7⟩ =
      ([⟨1, strN "Cat", strN "GLOBAL", 7⟩], false) :=
  C9_unique_no_dup.2.1 _ _ (by decide)

lemma count_split (st : List Row) (user guild : Nat) :
    countKeywords st user guild =
      (st.filter fun r => decide (r.user = user ∧ r.guild = guild ∧ r.chan = GLOBALSTR)).length +
      (st.filter fun r => decide (r.user = user ∧ r.guild = guild ∧ r.chan ≠ GLOBALSTR)).length := by
  induction st with
  | nil => rfl
  | cons r rest ih =>
    by_cases hu : r.user = user ∧ r.guild = guild
    · by_cases hg : r.chan = GLOBALSTR
      · simp [countKeywords, List.filter_cons, hu, hg, List.length_cons] at ih ⊢
        omega
      · simp [countKeywords, List.filter_cons, hu, hg, List.length_cons] at ih ⊢
        omega
    · simp [countKeywords, List.filter_cons, hu] at ih ⊢
      have h1 : ¬(r.user = user ∧ r.guild = guild ∧ r.chan = GLOBALSTR) := fun h => hu ⟨h.1, h.2.1⟩
      have h2 : ¬(r.user = user ∧ r.guild = guild ∧ r.chan ≠ GLOBALSTR) := fun h => hu ⟨h.1, h.2.1⟩
      simp [h1, h2]
      omega

/-- C10: both subscribe handlers enforce the 10-subscriptions-per-owner-
per-server limit, counted over both scopes combined (the count has no scope
filter): a not-yet-tracked keyword is rejected with the limit outcome and
the store is unchanged. -/
theorem C10_limit_ten :
    (∀ (st : List Row) (user guild : Nat) (kw chan : List Nat),
      stripL kw ≠ [] →
      keywordExists st user (stripL kw) chan guild = false →
      10 ≤ countKeywords st user guild →
      addKeywordChannelCmd st user guild kw chan = (st, .limitReached)) ∧
    (∀ (st : List Row) (user guild : Nat) (kw : List Nat),
      stripL kw ≠ [] →
      keywordExists st user (stripL kw) GLOBALSTR guild = false →
      10 ≤ countKeywords st user guild →
      addKeywordServerCmd st user guild kw = (st, .limitReached)) ∧
    (∀ (st : List Row) (user guild : Nat),
      countKeywords st user guild =
        (st.filter fun r => decide (r.user = user ∧ r.guild = guild ∧ r.chan = GLOBALSTR)).length +
        (st.filter fun r => decide (r.user = user ∧ r.guild = guild ∧ r.chan ≠ GLOBALSTR)).length) := by
  refine ⟨?_, ?_, count_split⟩
  · intro st user guild kw chan hne hex hcnt
    unfold addKeywordChannelCmd
    simp [hne, hex, hcnt]
  · intro st user guild kw hne hex hcnt
    unfold addKeywordServerCmd
    simp [hne, hex, hcnt]

/-- A concrete store with ten subscriptions of owner 1 in guild 7 (mixed
scopes), used as the C10 witness. -/
def tenRows : List Row :=
  [⟨1, strN "k0", strN "GLOBAL", 7⟩, ⟨1, strN "k1", strN "100", 7⟩,
   ⟨1, strN "k2", strN "GLOBAL", 7⟩, ⟨1, strN "k3", strN "100", 7⟩,
   ⟨1, strN "k4", strN "GLOBAL", 7⟩, ⟨1, strN "k5", strN "100", 7⟩,
   ⟨1, strN "k6", strN "GLOBAL", 7⟩, ⟨1, strN "k7", strN "100", 7⟩,
   ⟨1, strN "k8", strN "GLOBAL", 7⟩, ⟨1, strN "k9", strN "100", 7⟩]

/-- Witness for C10: with ten existing subscriptions across both scopes, a
fresh keyword is rejected by both handlers and the store is unchanged. -/
theorem C10_limit_ten_witness :
    addKeywordChannelCmd tenRows 1 7 (strN "fresh") (strN "100") = (tenRows, .limitReached) ∧
    addKeywordServerCmd tenRows 1 7 (strN "fresh") = (tenRows, .limitReached) :=
  ⟨C10_limit_ten.1 tenRows 1 7 (strN "fresh") (strN "100") (by decide) (by decide) (by decide),
   C10_limit_ten.2.1 tenRows 1 7 (strN "fresh") (by decide) (by decide) (by decide)⟩

/-! ## Match-engine lemmas and claims C3, C4, C8 -/

lemma mem_insertK {k kw : List Nat} {ks : List (List Nat)} :
    k ∈ insertK ks kw ↔ k ∈ ks ∨ k = kw := by
  unfold insertK
  split
  · next h =>
    constructor
    · exact Or.inl
    · rintro (hk | rfl)
      · exact hk
      · exact h
  · simp

lemma memMatch_nil {u : Nat} {k : List Nat} : ¬ memMatch u k [] := by
  simp [memMatch]

lemma memMatch_cons {u w : Nat} {k : List Nat} {ks : List (List Nat)}
    {m : List (Nat × List (List Nat))} :
    memMatch u k ((w, ks) :: m) ↔ (w = u ∧ k ∈ ks) ∨ memMatch u k m := by
  simp [memMatch]

lemma memMatch_addMatch (u v : Nat) (k kw : List Nat) (m : List (Nat × List (List Nat))) :
    memMatch u k (addMatch m v kw) ↔ memMatch u k m ∨ (v = u ∧ k = kw) := by
  induction m with
  | nil => simp [addMatch, memMatch]
  | cons e rest ih =>
    obtain ⟨w, ks⟩ := e
    by_cases hw : w = v
    · subst hw
      have h : addMatch ((w, ks) :: rest) w kw = (w, insertK ks kw) :: rest := by
        rw [addMatch, if_pos rfl]
      rw [h, memMatch_cons, memMatch_cons, mem_insertK]
      tauto
    · have h : addMatch ((w, ks) :: rest) v kw = (w, ks) :: addMatch rest v kw := by
        rw [addMatch, if_neg hw]
      rw [h, memMatch_cons, ih, memMatch_cons]
      tauto

/-- The `matched` component of one loop iteration, as a single conditional:
a row contributes exactly when the author differs from the owner, the scope
admits the channel, and the compiled pattern finds the keyword. -/
lemma engineStep_matched (msg : Msg) (st : MState) (s : Sub) :
    (engineStep msg st s).matched =
      if msg.author ≠ s.user ∧ (s.chan = GLOBALSTR ∨ natStr msg.chan = s.chan) ∧
          compileMatch s.kw msg.content = true
      then addMatch st.matched s.user s.kw else st.matched := by
  unfold engineStep
  by_cases h1 : msg.author = s.user
  · simp [h1]
  · by_cases h2 : s.chan ≠ GLOBALSTR ∧ natStr msg.chan ≠ s.chan
    · have : ¬ (s.chan = GLOBALSTR ∨ natStr msg.chan = s.chan) := by tauto
      simp [h1, h2, this]
    · by_cases h3 : compileMatch s.kw msg.content = true
      · have : s.chan = GLOBALSTR ∨ natStr msg.chan = s.chan := by tauto
        simp [h1, h2, h3, this]
      · simp [h1, h2, h3]

/-- Characterization of membership in the Match Result produced by the
matching loop. -/
lemma foldl_memMatch (msg : Msg) (rows : List Sub) (st : MState) (u : Nat) (k : List Nat) :
    memMatch u k (rows.foldl (engineStep msg) st).matched ↔
      memMatch u k st.matched ∨
        ∃ s ∈ rows, s.user = u ∧ k = s.kw ∧ msg.author ≠ s.user ∧
          (s.chan = GLOBALSTR ∨ natStr msg.chan = s.chan) ∧
          compileMatch s.kw msg.content = true := by
  induction rows generalizing st with
  | nil => simp
  | cons s rest ih =>
    rw [List.foldl_cons, ih]
    by_cases hc : msg.author ≠ s.user ∧ (s.chan = GLOBALSTR ∨ natStr msg.chan = s.chan) ∧
        compileMatch s.kw msg.content = true
    · rw [show (engineStep msg st s).matched = addMatch st.matched s.user s.kw by
        rw [engineStep_matched, if_pos hc]]
      rw [memMatch_addMatch]
      simp only [List.mem_cons]
      constructor
      · rintro ((h | ⟨hsu, hk⟩) | ⟨x, hx, rest⟩)
        · exact Or.inl h
        · exact Or.inr ⟨s, Or.inl rfl, hsu, hk, hc.1, hc.2.1, hc.2.2⟩
        · exact Or.inr ⟨x, Or.inr hx, rest⟩
      · rintro (h | ⟨x, (rfl | hx), hxu, hk, hrest⟩)
        · exact Or.inl (Or.inl h)
        · exact Or.inl (Or.inr ⟨hxu, hk⟩)
        · exact Or.inr ⟨x, hx, hxu, hk, hrest⟩
    · rw [show (engineStep msg st s).matched = st.matched by
        rw [engineStep_matched, if_neg hc]]
      constructor
      · rintro (h | ⟨x, hx, hrest⟩)
        · exact Or.inl h
        · exact Or.inr ⟨x, List.mem_cons_of_mem _ hx, hrest⟩
      · rintro (h | ⟨x, hx, hxu, hk, hxa, hxc, hxm⟩)
        · exact Or.inl h
        · rcases List.mem_cons.mp hx with rfl | hx
          · exact absurd ⟨hxa, hxc, hxm⟩ hc
          · exact Or.inr ⟨x, hx, hxu, hk, hxa, hxc, hxm⟩

/-- C3: a subscription owned by the message author never appears in the Match
Result, and the self-check short-circuits the whole loop iteration: on a
self-owned row the loop state (pattern cache included) is untouched, so no
compilation or pattern evaluation happens for that row. -/
theorem C3_self_match_suppressed :
    (∀ (rows : List Sub) (msg : Msg) (u : Nat) (k : List Nat),
      u = msg.author → ¬ memMatch u k (matchEngine rows msg).matched) ∧
    (∀ (msg : Msg) (st : MState) (s : Sub),
      s.user = msg.author → engineStep msg st s = st) := by
  constructor
  · intro rows msg u k hu h
    rw [matchEngine, foldl_memMatch] at h
    rcases h with h | ⟨s, _, hsu, _, hne, _⟩
    · exact memMatch_nil h
    · exact hne (hu ▸ hsu.symm ▸ rfl)
  · intro msg st s h
    unfold engineStep
    rw [if_pos h.symm]

/-- Witness for C3: the author of the message owns a matching subscription in
the right channel, yet does not appear in the Match Result, and the row
leaves the loop state untouched. -/
theorem C3_self_match_suppressed_witness :
    (¬ memMatch 3 (strN "sale")
      (matchEngine [⟨3, strN "sale", GLOBALSTR⟩] ⟨7, 3, 100, strN "big sale today"⟩).matched) ∧
    engineStep ⟨7, 3, 100, strN "big sale today"⟩ ⟨[], []⟩ ⟨3, strN "sale", GLOBALSTR⟩ = ⟨[], []⟩ :=
  ⟨C3_self_match_suppressed.1 _ _ 3 (strN "sale") rfl,
   C3_self_match_suppressed.2 _ _ _ rfl⟩

/-- The keyword `"sale"`. -/
def saleK : List Nat := strN "sale"

/-- Scenario subscriptions: U1 channel-scoped to channel 100, U2 global. -/
def rows4 : List Sub := [⟨1, saleK, natStr 100⟩, ⟨2, saleK, GLOBALSTR⟩]

/-- Scenario message from U3 in channel C1 = 100. -/
def msgC1 : Msg := ⟨7, 3, 100, strN "big sale today"⟩

/-- Scenario message from U3 in channel C2 = 200. -/
def msgC2 : Msg := ⟨7, 3, 200, strN "big sale today"⟩

/-- C4: a channel-scoped subscription contributes nothing on a message from
a different channel (the loop iteration is the identity); a global-scoped
subscription that matches lands in the Match Result whatever the channel;
and the spec's end-to-end scenario yields exactly the stated Match Results. -/
theorem C4_scope_filtering :
    (∀ (msg : Msg) (st : MState) (s : Sub),
      s.chan ≠ GLOBALSTR → natStr msg.chan ≠ s.chan → engineStep msg st s = st) ∧
    (∀ (rows : List Sub) (msg : Msg) (s : Sub),
      s ∈ rows → s.chan = GLOBALSTR → msg.author ≠ s.user →
      compileMatch s.kw msg.content = true →
      memMatch s.user s.kw (matchEngine rows msg).matched) ∧
    (matchEngine rows4 msgC1).matched = [(1, [saleK]), (2, [saleK])] ∧
    (matchEngine rows4 msgC2).matched = [(2, [saleK])] := by
  refine ⟨?_, ?_, by decide, by decide⟩
  · intro msg st s h1 h2
    unfold engineStep
    by_cases ha : msg.author = s.user
    · rw [if_pos ha]
    · rw [if_neg ha, if_pos ⟨h1, h2⟩]
  · intro rows msg s hs hg ha hm
    rw [matchEngine, foldl_memMatch]
    exact Or.inr ⟨s, hs, rfl, rfl, ha, Or.inl hg, hm⟩

/-- Witness for C4: the global subscription of U2 matches the scenario
message in channel C2, and a channel-scoped row for channel 100 is skipped
on the channel-200 message. -/
theorem C4_scope_filtering_witness :
    engineStep msgC2 ⟨[], []⟩ ⟨1, saleK, natStr 100⟩ = ⟨[], []⟩ ∧
    memMatch 2 saleK (matchEngine rows4 msgC2).matched :=
  ⟨C4_scope_filtering.1 msgC2 ⟨[], []⟩ ⟨1, saleK, natStr 100⟩ (by decide) (by decide),
   C4_scope_filtering.2.1 rows4 msgC2 ⟨2, saleK, GLOBALSTR⟩ (by decide) rfl (by decide) (by decide)⟩

/-- C8: both empty cases exit with no work: with no subscriptions the
matching loop compiles no pattern and matches nothing, and with an empty
Match Result the dispatch phase makes no external call and touches no cache. -/
theorem C8_empty_fast_paths :
    (∀ msg : Msg, matchEngine [] msg = ⟨[], []⟩) ∧
    (∀ env : Env, dispatch env [] = ([], [], [])) :=
  ⟨fun _ => rfl, fun _ => rfl⟩

/-! ## Dispatch-phase lemmas (caches, traces) for claims C5, C6, C7 -/

lemma flatGet_nil (w : Nat) : flatGet [] w = none := rfl

lemma flatGet_cons_self (c : Cache) (uid : Nat) (v : Option Nat) :
    flatGet ((uid, v) :: c) uid = v := by
  simp [flatGet, List.lookup]

lemma flatGet_cons_ne (c : Cache) (uid w : Nat) (v : Option Nat) (hw : w ≠ uid) :
    flatGet ((uid, v) :: c) w = flatGet c w := by
  have hb : (w == uid) = false := by
    simpa using hw
  simp [flatGet, List.lookup, hb]

section OwnerStepBranches

variable (env : Env) (mc uc : Cache) (uid : Nat) (kws : List (List Nat))

/-- Member-cache hit, view permission denied: no event beyond none. -/
lemma ownerStep_b1 {m : Nat} (h1 : flatGet mc uid = some m) (h2 : env.canView m = false) :
    ownerStep env mc uc uid kws = (mc, uc, []) := by
  simp [ownerStep, h1, h2]

/-- Member-cache hit, view allowed, user-cache hit: only the delivery loop. -/
lemma ownerStep_b2 {m u : Nat} (h1 : flatGet mc uid = some m) (h2 : env.canView m = true)
    (h3 : flatGet uc uid = some u) :
    ownerStep env mc uc uid kws = (mc, uc, sendKws env u uid kws) := by
  simp [ownerStep, h1, h2, h3]

/-- Member-cache hit, view allowed, user-cache miss, user resolved. -/
lemma ownerStep_b3 {m u : Nat} (h1 : flatGet mc uid = some m) (h2 : env.canView m = true)
    (h3 : flatGet uc uid = none) (h4 : resolveUserFull env uid = some u) :
    ownerStep env mc uc uid kws =
      (mc, (uid, some u) :: uc, Event.userLookup uid :: sendKws env u uid kws) := by
  simp [ownerStep, h1, h2, h3, h4]

/-- Member-cache hit, view allowed, user-cache miss, user unresolved. -/
lemma ownerStep_b4 {m : Nat} (h1 : flatGet mc uid = some m) (h2 : env.canView m = true)
    (h3 : flatGet uc uid = none) (h4 : resolveUserFull env uid = none) :
    ownerStep env mc uc uid kws = (mc, (uid, none) :: uc, [Event.userLookup uid]) := by
  simp [ownerStep, h1, h2, h3, h4]

/-- Member-cache miss, member unresolved: skip the owner, cache the absence. -/
lemma ownerStep_b5 (h1 : flatGet mc uid = none) (h2 : resolveMemberFull env uid = none) :
    ownerStep env mc uc uid kws = ((uid, none) :: mc, uc, [Event.memberLookup uid]) := by
  simp [ownerStep, h1, h2]

/-- Member-cache miss, member resolved, view denied. -/
lemma ownerStep_b6 {m : Nat} (h1 : flatGet mc uid = none)
    (h2 : resolveMemberFull env uid = some m) (h3 : env.canView m = false) :
    ownerStep env mc uc uid kws = ((uid, some m) :: mc, uc, [Event.memberLookup uid]) := by
  simp [ownerStep, h1, h2, h3]

/-- Member-cache miss, member resolved, view allowed, user-cache hit. -/
lemma ownerStep_b7 {m u : Nat} (h1 : flatGet mc uid = none)
    (h2 : resolveMemberFull env uid = some m) (h3 : env.canView m = true)
    (h4 : flatGet uc uid = some u) :
    ownerStep env mc uc uid kws =
      ((uid, some m) :: mc, uc, Event.memberLookup uid :: sendKws env u uid kws) := by
  simp [ownerStep, h1, h2, h3, h4]

/-- Member-cache miss, member resolved, view allowed, user-cache miss, user
resolved: the full path. -/
lemma ownerStep_b8 {m u : Nat} (h1 : flatGet mc uid = none)
    (h2 : resolveMemberFull env uid = some m) (h3 : env.canView m = true)
    (h4 : flatGet uc uid = none) (h5 : resolveUserFull env uid = some u) :
    ownerStep env mc uc uid kws =
      ((uid, some m) :: mc, (uid, some u) :: uc,
        Event.memberLookup uid :: Event.userLookup uid :: sendKws env u uid kws) := by
  simp [ownerStep, h1, h2, h3, h4, h5]

/-- Member-cache miss, member resolved, view allowed, user-cache miss, user
unresolved. -/
lemma ownerStep_b9 {m : Nat} (h1 : flatGet mc uid = none)
    (h2 : resolveMemberFull env uid = some m) (h3 : env.canView m = true)
    (h4 : flatGet uc uid = none) (h5 : resolveUserFull env uid = none) :
    ownerStep env mc uc uid kws =
      ((uid, some m) :: mc, (uid, none) :: uc,
        [Event.memberLookup uid, Event.userLookup uid]) := by
  simp [ownerStep, h1, h2, h3, h4, h5]

end OwnerStepBranches

/-- What one owner's block does, as a function of the two cache readings at
that owner only: the cache entry written at `uid` (if any) for each cache,
and the events emitted. -/
def ownerStepAbs (env : Env) (uid : Nat) (kws : List (List Nat)) (mv uv : Option Nat) :
    Option (Option Nat) × Option (Option Nat) × List Event :=
  let member := match mv with | some m => some m | none => resolveMemberFull env uid
  let mcU : Option (Option Nat) :=
    match mv with | some _ => none | none => some (resolveMemberFull env uid)
  let ev1 : List Event := match mv with | some _ => [] | none => [Event.memberLookup uid]
  match member with
  | none => (mcU, none, ev1)
  | some m =>
    if env.canView m = false then (mcU, none, ev1)
    else
      let user := match uv with | some u => some u | none => resolveUserFull env uid
      let ucU : Option (Option Nat) :=
        match uv with | some _ => none | none => some (resolveUserFull env uid)
      let ev2 : List Event := match uv with | some _ => [] | none => [Event.userLookup uid]
      match user with
      | none => (mcU, ucU, ev1 ++ ev2)
      | some u => (mcU, ucU, ev1 ++ ev2 ++ sendKws env u uid kws)

/-- Apply an optional cache write at `uid`. -/
def applyUpd (c : Cache) (uid : Nat) : Option (Option Nat) → Cache
  | none => c
  | some v => (uid, v) :: c

/-- `ownerStep` factors through `ownerStepAbs`: the block's behaviour depends
on the caches only through their readings at the owner's id, and it writes
the caches only at that id. -/
lemma ownerStep_abs (env : Env) (mc uc : Cache) (uid : Nat) (kws : List (List Nat)) :
    ownerStep env mc uc uid kws =
      (applyUpd mc uid (ownerStepAbs env uid kws (flatGet mc uid) (flatGet uc uid)).1,
       applyUpd uc uid (ownerStepAbs env uid kws (flatGet mc uid) (flatGet uc uid)).2.1,
       (ownerStepAbs env uid kws (flatGet mc uid) (flatGet uc uid)).2.2) := by
  cases hmv : flatGet mc uid with
  | some m =>
    cases hcv : env.canView m with
    | false =>
      rw [ownerStep_b1 env mc uc uid kws hmv hcv]
      simp [ownerStepAbs, applyUpd, hcv]
    | true =>
      cases huv : flatGet uc uid with
      | some u =>
        rw [ownerStep_b2 env mc uc uid kws hmv hcv huv]
        simp [ownerStepAbs, applyUpd, hcv]
      | none =>
        cases hru : resolveUserFull env uid with
        | some u =>
          rw [ownerStep_b3 env mc uc uid kws hmv hcv huv hru]
          simp [ownerStepAbs, applyUpd, hcv, hru]
        | none =>
          rw [ownerStep_b4 env mc uc uid kws hmv hcv huv hru]
          simp [ownerStepAbs, applyUpd, hcv, hru]
  | none =>
    cases hrm : resolveMemberFull env uid with
    | none =>
      rw [ownerStep_b5 env mc uc uid kws hmv hrm]
      simp [ownerStepAbs, applyUpd, hrm]
    | some m =>
      cases hcv : env.canView m with
      | false =>
        rw [ownerStep_b6 env mc uc uid kws hmv hrm hcv]
        simp [ownerStepAbs, applyUpd, hrm, hcv]
      | true =>
        cases huv : flatGet uc uid with
        | some u =>
          rw [ownerStep_b7 env mc uc uid kws hmv hrm hcv huv]
          simp [ownerStepAbs, applyUpd, hrm, hcv]
        | none =>
          cases hru : resolveUserFull env uid with
          | some u =>
            rw [ownerStep_b8 env mc uc uid kws hmv hrm hcv huv hru]
            simp [ownerStepAbs, applyUpd, hrm, hcv, hru]
          | none =>
            rw [ownerStep_b9 env mc uc uid kws hmv hrm hcv huv hru]
            simp [ownerStepAbs, applyUpd, hrm, hcv, hru]

lemma applyUpd_flatGet_ne {c : Cache} {uid w : Nat} (upd : Option (Option Nat))
    (hw : w ≠ uid) : flatGet (applyUpd c uid upd) w = flatGet c w := by
  cases upd with
  | none => rfl
  | some v => exact flatGet_cons_ne c uid w v hw

lemma applyUpd_flatGet_self {c : Cache} {uid : Nat} (upd : Option (Option Nat)) :
    flatGet (applyUpd c uid upd) uid =
      match upd with | none => flatGet c uid | some v => v := by
  cases upd with
  | none => rfl
  | some v => exact flatGet_cons_self c uid v

lemma sendKws_eventUid (env : Env) (u uid : Nat) (l : List (List Nat)) :
    ∀ e ∈ sendKws env u uid l, eventUid e = uid := by
  induction l with
  | nil => simp [sendKws]
  | cons kw rest ih =>
    intro e he
    rw [sendKws] at he
    rcases List.mem_cons.mp he with rfl | he
    · rfl
    · cases hx : env.dmOk u kw <;> rw [hx] at he
      · simp at he
      · simp only [if_true] at he
        exact ih e he

lemma ownerStepAbs_eventUid (env : Env) (uid : Nat) (kws : List (List Nat))
    (mv uv : Option Nat) :
    ∀ e ∈ (ownerStepAbs env uid kws mv uv).2.2, eventUid e = uid := by
  intro e he
  cases mv with
  | some m =>
    cases hcv : env.canView m with
    | false =>
      simp [ownerStepAbs, hcv] at he
    | true =>
      cases uv with
      | some u =>
        simp only [ownerStepAbs, hcv] at he
        simp only [Bool.true_eq_false, if_false, List.nil_append] at he
        exact sendKws_eventUid env u uid kws e he
      | none =>
        cases hru : resolveUserFull env uid with
        | some u =>
          simp only [ownerStepAbs, hcv, hru] at he
          simp only [Bool.true_eq_false, if_false, List.nil_append, List.cons_append,
            List.mem_cons] at he
          rcases he with rfl | he
          · rfl
          · exact sendKws_eventUid env u uid kws e he
        | none =>
          simp [ownerStepAbs, hcv, hru] at he
          subst he
          rfl
  | none =>
    cases hrm : resolveMemberFull env uid with
    | none =>
      simp [ownerStepAbs, hrm] at he
      subst he
      rfl
    | some m =>
      cases hcv : env.canView m with
      | false =>
        simp [ownerStepAbs, hrm, hcv] at he
        subst he
        rfl
      | true =>
        cases uv with
        | some u =>
          simp only [ownerStepAbs, hrm, hcv] at he
          simp [List.mem_append] at he
          rcases he with rfl | he
          · rfl
          · exact sendKws_eventUid env u uid kws e he
        | none =>
          cases hru : resolveUserFull env uid with
          | some u =>
            simp only [ownerStepAbs, hrm, hcv, hru] at he
            simp [List.mem_append] at he
            rcases he with rfl | rfl | he
            · rfl
            · rfl
            · exact sendKws_eventUid env u uid kws e he
          | none =>
            simp [ownerStepAbs, hrm, hcv, hru] at he
            rcases he with rfl | rfl <;> rfl

lemma ownerStep_eventUid (env : Env) (mc uc : Cache) (uid : Nat) (kws : List (List Nat)) :
    ∀ e ∈ (ownerStep env mc uc uid kws).2.2, eventUid e = uid := by
  rw [ownerStep_abs]
  exact ownerStepAbs_eventUid env uid kws _ _

/-- Splitting a dispatch run at a list append: the trace is the prefix's
trace followed by the run of the suffix from the prefix's final caches. -/
lemma runOwners_append (env : Env) (l1 l2 : List (Nat × List (List Nat))) :
    ∀ mc uc,
    runOwners env mc uc (l1 ++ l2) =
      ((runOwners env (runOwners env mc uc l1).1 (runOwners env mc uc l1).2.1 l2).1,
       (runOwners env (runOwners env mc uc l1).1 (runOwners env mc uc l1).2.1 l2).2.1,
       (runOwners env mc uc l1).2.2 ++
         (runOwners env (runOwners env mc uc l1).1 (runOwners env mc uc l1).2.1 l2).2.2) := by
  induction l1 with
  | nil => intro mc uc; simp [runOwners]
  | cons x rest ih =>
    intro mc uc
    obtain ⟨uid, kws⟩ := x
    simp only [List.cons_append, runOwners, List.append_eq, ih, List.append_assoc]

/-- A run touches the caches only at the keys of its owner list. -/
lemma runOwners_flatGet (env : Env) (l : List (Nat × List (List Nat))) :
    ∀ mc uc w, w ∉ l.map Prod.fst →
      flatGet (runOwners env mc uc l).1 w = flatGet mc w ∧
      flatGet (runOwners env mc uc l).2.1 w = flatGet uc w := by
  induction l with
  | nil => intro mc uc w _; exact ⟨rfl, rfl⟩
  | cons x rest ih =>
    intro mc uc w hw
    obtain ⟨uid, kws⟩ := x
    simp only [List.map_cons, List.mem_cons, not_or] at hw
    obtain ⟨hwuid, hwrest⟩ := hw
    have hstep := ownerStep_abs env mc uc uid kws
    rw [runOwners]
    have hih := ih (ownerStep env mc uc uid kws).1 (ownerStep env mc uc uid kws).2.1 w hwrest
    rw [hih.1, hih.2, hstep]
    exact ⟨applyUpd_flatGet_ne _ hwuid, applyUpd_flatGet_ne _ hwuid⟩

/-- Traces depend on the starting caches only through their readings at the
owner keys of the list. -/
lemma runOwners_trace_agree (env : Env) (l : List (Nat × List (List Nat))) :
    ∀ mc1 uc1 mc2 uc2,
    (∀ u ∈ l.map Prod.fst, flatGet mc1 u = flatGet mc2 u ∧ flatGet uc1 u = flatGet uc2 u) →
    (runOwners env mc1 uc1 l).2.2 = (runOwners env mc2 uc2 l).2.2 := by
  induction l with
  | nil => intro _ _ _ _ _; rfl
  | cons x rest ih =>
    intro mc1 uc1 mc2 uc2 hag
    obtain ⟨uid, kws⟩ := x
    have huid := hag uid (by simp)
    rw [runOwners, runOwners, ownerStep_abs, ownerStep_abs, huid.1, huid.2]
    dsimp only
    congr 1
    apply ih
    intro u hu
    by_cases hcase : u = uid
    · subst hcase
      rw [applyUpd_flatGet_self, applyUpd_flatGet_self, applyUpd_flatGet_self,
        applyUpd_flatGet_self]
      constructor
      · cases (ownerStepAbs env u kws (flatGet mc2 u) (flatGet uc2 u)).1 with
        | none => exact huid.1
        | some v => rfl
      · cases (ownerStepAbs env u kws (flatGet mc2 u) (flatGet uc2 u)).2.1 with
        | none => exact huid.2
        | some v => rfl
    · rw [applyUpd_flatGet_ne _ hcase, applyUpd_flatGet_ne _ hcase,
        applyUpd_flatGet_ne _ hcase, applyUpd_flatGet_ne _ hcase]
      exact hag u (by simp [hu])

/-- Every event of a run belongs to one of the run's owners. -/
lemma runOwners_eventUid (env : Env) (l : List (Nat × List (List Nat))) :
    ∀ mc uc e, e ∈ (runOwners env mc uc l).2.2 → eventUid e ∈ l.map Prod.fst := by
  induction l with
  | nil => intro _ _ e he; simp [runOwners] at he
  | cons x rest ih =>
    intro mc uc e he
    obtain ⟨uid, kws⟩ := x
    rw [runOwners] at he
    rcases List.mem_append.mp he with he | he
    · simp [ownerStep_eventUid env mc uc uid kws e he]
    · simp only [List.map_cons, List.mem_cons]
      exact Or.inr (ih _ _ e he)

lemma flatGet_eq_none_of_not_mem (c : Cache) (w : Nat) (hw : w ∉ c.map Prod.fst) :
    flatGet c w = none := by
  induction c with
  | nil => rfl
  | cons x rest ih =>
    obtain ⟨k, v⟩ := x
    simp only [List.map_cons, List.mem_cons, not_or] at hw
    rw [show (k, v) = ((k : Nat), (v : Option Nat)) from rfl, flatGet_cons_ne _ _ _ _ hw.1]
    exact ih hw.2

/-- Splitting a whole dispatch at one owner in the middle, assuming the
distinct-owner-keys shape that the match engine's `dict` guarantees:  the
trace is the dispatch of the prefix, the owner's own block run from empty
caches, then the dispatch of the suffix. -/
lemma dispatch_decomp (env : Env) (pre post : List (Nat × List (List Nat)))
    (uid : Nat) (kws : List (List Nat))
    (hnd : ((pre ++ (uid, kws) :: post).map Prod.fst).Nodup) :
    dispatchTrace env (pre ++ (uid, kws) :: post) =
      dispatchTrace env pre ++ (ownerStep env [] [] uid kws).2.2 ++ dispatchTrace env post := by
  rw [List.map_append, List.map_cons, List.nodup_append] at hnd
  obtain ⟨hpre, hcons, hdisj⟩ := hnd
  rw [List.nodup_cons] at hcons
  have huidpre : uid ∉ pre.map Prod.fst := fun h => hdisj h (List.mem_cons_self _ _)
  have hpostpre : ∀ u ∈ post.map Prod.fst, u ∉ pre.map Prod.fst :=
    fun u hu h => hdisj h (List.mem_cons_of_mem _ hu)
  have huidpost : uid ∉ post.map Prod.fst := hcons.1
  unfold dispatchTrace dispatch
  rw [runOwners_append]
  simp only
  set mc1 := (runOwners env [] [] pre).1 with hmc1
  set uc1 := (runOwners env [] [] pre).2.1 with huc1
  have hpres := runOwners_flatGet env pre [] [] uid huidpre
  rw [runOwners]
  have hstepev : (ownerStep env mc1 uc1 uid kws).2.2 = (ownerStep env [] [] uid kws).2.2 := by
    rw [ownerStep_abs, ownerStep_abs]
    simp only
    rw [← hmc1, ← huc1] at hpres
    rw [hpres.1, hpres.2]
  have htail : (runOwners env (ownerStep env mc1 uc1 uid kws).1
      (ownerStep env mc1 uc1 uid kws).2.1 post).2.2 = (runOwners env [] [] post).2.2 := by
    apply runOwners_trace_agree
    intro u hu
    have hne : u ≠ uid := fun h => huidpost (h ▸ hu)
    have hupre : u ∉ pre.map Prod.fst := hpostpre u hu
    rw [ownerStep_abs]
    simp only
    rw [applyUpd_flatGet_ne _ hne, applyUpd_flatGet_ne _ hne]
    have := runOwners_flatGet env pre [] [] u hupre
    rw [← hmc1, ← huc1] at this
    rw [this.1, this.2]
    exact ⟨rfl, rfl⟩
  rw [hstepev, htail, List.append_assoc]

lemma nodup_mid (pre post : List (Nat × List (List Nat))) (uid : Nat)
    (kws : List (List Nat))
    (hnd : ((pre ++ (uid, kws) :: post).map Prod.fst).Nodup) :
    uid ∉ pre.map Prod.fst ∧ uid ∉ post.map Prod.fst := by
  rw [List.map_append, List.map_cons, List.nodup_append] at hnd
  exact ⟨fun h => hnd.2.2 h (List.mem_cons_self _ _), (List.nodup_cons.mp hnd.2.1).1⟩

/-- C5: an owner whose resolved member fails the view-permission check on the
originating channel receives no delivery attempt for any keyword; their block
contributes exactly the one member lookup, and the dispatch of all other
owners proceeds exactly as it would without them. -/
theorem C5_view_permission_gate (env : Env) (pre post : List (Nat × List (List Nat)))
    (uid : Nat) (kws : List (List Nat)) (m : Nat)
    (hnd : ((pre ++ (uid, kws) :: post).map Prod.fst).Nodup)
    (hm : resolveMemberFull env uid = some m)
    (hv : env.canView m = false) :
    dispatchTrace env (pre ++ (uid, kws) :: post) =
      dispatchTrace env pre ++ [Event.memberLookup uid] ++ dispatchTrace env post ∧
    ∀ kw, Event.dmAttempt uid kw ∉ dispatchTrace env (pre ++ (uid, kws) :: post) := by
  have hb := ownerStep_b6 env [] [] uid kws rfl hm hv
  have hdec := dispatch_decomp env pre post uid kws hnd
  rw [hb] at hdec
  refine ⟨hdec, ?_⟩
  intro kw hmem
  obtain ⟨hupre, hupost⟩ := nodup_mid pre post uid kws hnd
  rw [hdec] at hmem
  rcases List.mem_append.mp hmem with hmem | hmem
  · rcases List.mem_append.mp hmem with hmem | hmem
    · exact hupre (runOwners_eventUid env pre [] [] _ hmem)
    · simp at hmem
  · exact hupost (runOwners_eventUid env post [] [] _ hmem)

/-- A concrete dispatch environment for the C5 witness: members resolve but
view permission is denied everywhere. -/
def env5 : Env :=
  ⟨fun _ => some 55, fun _ => .notFound, fun _ => false,
   fun _ => some 66, fun _ => .notFound, fun _ _ => true⟩

/-- Witness for C5: owner 9 is matched but fails the permission check; their
block is the single member lookup and no DM attempt for them occurs. -/
theorem C5_view_permission_gate_witness :
    dispatchTrace env5 [(5, [strN "a"]), (9, [strN "b"])] =
      dispatchTrace env5 [(5, [strN "a"])] ++ [Event.memberLookup 9] ++
        dispatchTrace env5 [] ∧
    Event.dmAttempt 9 (strN "b") ∉ dispatchTrace env5 [(5, [strN "a"]), (9, [strN "b"])] := by
  have h := C5_view_permission_gate env5 [(5, [strN "a"])] [] 9 [strN "b"] 55
    (by decide) rfl rfl
  exact ⟨h.1, h.2 (strN "b")⟩

/-- The delivery loop on `ks1 ++ kbad :: ks2` when every send in `ks1`
succeeds and the send of `kbad` is refused: each keyword of `ks1` is
attempted once, then `kbad`, then the `break` fires. -/
lemma sendKws_stop (env : Env) (u uid : Nat) (ks1 : List (List Nat))
    (kbad : List Nat) (ks2 : List (List Nat))
    (hok : ∀ k ∈ ks1, env.dmOk u k = true) (hbad : env.dmOk u kbad = false) :
    sendKws env u uid (ks1 ++ kbad :: ks2) =
      ks1.map (Event.dmAttempt uid) ++ [Event.dmAttempt uid kbad] := by
  induction ks1 with
  | nil => simp [sendKws, hbad]
  | cons k rest ih =>
    have hk := hok k (List.mem_cons_self _ _)
    rw [List.cons_append, sendKws, hk, if_pos rfl,
      ih fun x hx => hok x (List.mem_cons_of_mem _ hx)]
    simp

/-- C6: when a DM to an owner is refused, the already-attempted keywords of
that owner each show exactly one attempt, the refusal stops the remaining
keywords of that owner, and every other owner's dispatch is exactly what it
would be without the refused owner (the refusal is local, not fatal). -/
theorem C6_dm_refusal_local (env : Env) (pre post : List (Nat × List (List Nat)))
    (uid : Nat) (ks1 : List (List Nat)) (kbad : List Nat) (ks2 : List (List Nat))
    (m u : Nat)
    (hnd : ((pre ++ (uid, ks1 ++ kbad :: ks2) :: post).map Prod.fst).Nodup)
    (hm : resolveMemberFull env uid = some m)
    (hv : env.canView m = true)
    (hu : resolveUserFull env uid = some u)
    (hok : ∀ k ∈ ks1, env.dmOk u k = true)
    (hbad : env.dmOk u kbad = false) :
    dispatchTrace env (pre ++ (uid, ks1 ++ kbad :: ks2) :: post) =
      dispatchTrace env pre ++
        (Event.memberLookup uid :: Event.userLookup uid ::
          (ks1.map (Event.dmAttempt uid) ++ [Event.dmAttempt uid kbad])) ++
        dispatchTrace env post ∧
    ∀ k ∈ ks2, k ∉ ks1 → k ≠ kbad →
      Event.dmAttempt uid k ∉ dispatchTrace env (pre ++ (uid, ks1 ++ kbad :: ks2) :: post) := by
  have hb := ownerStep_b8 env [] [] uid (ks1 ++ kbad :: ks2) rfl hm hv rfl hu
  have hdec := dispatch_decomp env pre post uid (ks1 ++ kbad :: ks2) hnd
  rw [hb] at hdec
  rw [sendKws_stop env u uid ks1 kbad ks2 hok hbad] at hdec
  refine ⟨hdec, ?_⟩
  intro k hk2 hk1 hkb hmem
  obtain ⟨hupre, hupost⟩ := nodup_mid pre post uid (ks1 ++ kbad :: ks2) hnd
  rw [hdec] at hmem
  rcases List.mem_append.mp hmem with hmem | hmem
  · rcases List.mem_append.mp hmem with hmem | hmem
    · exact hupre (runOwners_eventUid env pre [] [] _ hmem)
    · rcases List.mem_cons.mp hmem with h | hmem
      · exact Event.noConfusion h
      rcases List.mem_cons.mp hmem with h | hmem
      · exact Event.noConfusion h
      rcases List.mem_append.mp hmem with hmem | hmem
      · obtain ⟨x, hx, hxe⟩ := List.mem_map.mp hmem
        have hkx : k = x := ((Event.dmAttempt.injEq _ _ _ _).mp hxe.symm).2
        exact hk1 (hkx ▸ hx)
      · simp only [List.mem_singleton] at hmem
        exact hkb ((Event.dmAttempt.injEq _ _ _ _).mp hmem).2
  · exact hupost (runOwners_eventUid env post [] [] _ hmem)

/-- A concrete dispatch environment for the C6 witness: everything resolves,
view is allowed, and the DM for keyword `"b"` is refused. -/
def env6 : Env :=
  ⟨fun _ => some 55, fun _ => .notFound, fun _ => true,
   fun _ => some 66, fun _ => .notFound, fun _ kw => decide (kw ≠ strN "b")⟩

/-- Witness for C6: owner 9's DM for `"a"` succeeds, the DM for `"b"` is
refused, keyword `"c"` is never attempted, and owner 5's dispatch is intact. -/
theorem C6_dm_refusal_local_witness :
    dispatchTrace env6 [(5, [strN "x"]), (9, [strN "a", strN "b", strN "c"])] =
      dispatchTrace env6 [(5, [strN "x"])] ++
        (Event.memberLookup 9 :: Event.userLookup 9 ::
          ([strN "a"].map (Event.dmAttempt 9) ++ [Event.dmAttempt 9 (strN "b")])) ++
        dispatchTrace env6 [] ∧
    Event.dmAttempt 9 (strN "c") ∉
      dispatchTrace env6 [(5, [strN "x"]), (9, [strN "a", strN "b", strN "c"])] := by
  have h := C6_dm_refusal_local env6 [(5, [strN "x"])] [] 9 [strN "a"] (strN "b")
    [strN "c"] 55 66 (by decide) rfl rfl rfl (by decide) (by decide)
  exact ⟨h.1, h.2 (strN "c") (by decide) (by decide) (by decide)⟩

/-! ## C7: per-pass memoization of resolutions -/

lemma not_lookup_mem_sendKws (env : Env) (u uid w : Nat) (l : List (List Nat)) :
    Event.memberLookup w ∉ sendKws env u uid l ∧
    Event.userLookup w ∉ sendKws env u uid l := by
  induction l with
  | nil => simp [sendKws]
  | cons kw rest ih =>
    rw [sendKws]
    cases env.dmOk u kw with
    | false => simp
    | true =>
      simp only [if_pos rfl, List.mem_cons, not_or]
      exact ⟨⟨Event.noConfusion, ih.1⟩, ⟨Event.noConfusion, ih.2⟩⟩

/-- One owner's block makes at most one member lookup and at most one user
lookup — whatever the caches hold. -/
lemma ownerStep_count (env : Env) (mc uc : Cache) (uid : Nat) (kws : List (List Nat))
    (w : Nat) :
    (ownerStep env mc uc uid kws).2.2.count (Event.memberLookup w) ≤ 1 ∧
    (ownerStep env mc uc uid kws).2.2.count (Event.userLookup w) ≤ 1 := by
  have hsm := (not_lookup_mem_sendKws env · uid w kws)
  cases hmv : flatGet mc uid with
  | some m =>
    cases hcv : env.canView m with
    | false => rw [ownerStep_b1 env mc uc uid kws hmv hcv]; simp
    | true =>
      cases huv : flatGet uc uid with
      | some u =>
        rw [ownerStep_b2 env mc uc uid kws hmv hcv huv]
        constructor <;> [exact le_trans (Nat.le_of_eq (List.count_eq_zero.mpr (hsm u).1))
          (by omega); exact le_trans (Nat.le_of_eq (List.count_eq_zero.mpr (hsm u).2))
          (by omega)]
      | none =>
        cases hru : resolveUserFull env uid with
        | some u =>
          rw [ownerStep_b3 env mc uc uid kws hmv hcv huv hru]
          rw [List.count_cons, List.count_cons]
          rw [List.count_eq_zero.mpr (hsm u).1, List.count_eq_zero.mpr (hsm u).2]
          constructor <;> split <;> simp
        | none =>
          rw [ownerStep_b4 env mc uc uid kws hmv hcv huv hru]
          constructor <;> (simp only [List.count_cons, List.count_nil]; simp; try (split <;> simp))
  | none =>
    cases hrm : resolveMemberFull env uid with
    | none =>
      rw [ownerStep_b5 env mc uc uid kws hmv hrm]
      constructor <;> (simp only [List.count_cons, List.count_nil]; simp; try (split <;> simp))
    | some m =>
      cases hcv : env.canView m with
      | false =>
        rw [ownerStep_b6 env mc uc uid kws hmv hrm hcv]
        constructor <;> (simp only [List.count_cons, List.count_nil]; simp; try (split <;> simp))
      | true =>
        cases huv : flatGet uc uid with
        | some u =>
          rw [ownerStep_b7 env mc uc uid kws hmv hrm hcv huv]
          rw [List.count_cons, List.count_cons]
          rw [List.count_eq_zero.mpr (hsm u).1, List.count_eq_zero.mpr (hsm u).2]
          constructor <;> split <;> simp
        | none =>
          cases hru : resolveUserFull env uid with
          | some u =>
            rw [ownerStep_b8 env mc uc uid kws hmv hrm hcv huv hru]
            simp only [List.count_cons, List.count_eq_zero.mpr (hsm u).1,
              List.count_eq_zero.mpr (hsm u).2]
            constructor <;> split <;> split <;> simp_all
          | none =>
            rw [ownerStep_b9 env mc uc uid kws hmv hrm hcv huv hru]
            constructor <;> (simp only [List.count_cons, List.count_nil]; simp; try (split <;> simp))

/-- Over a whole dispatch with distinct owner keys, each owner triggers at
most one member lookup and at most one user lookup. -/
lemma runOwners_count (env : Env) (l : List (Nat × List (List Nat)))
    (hnd : (l.map Prod.fst).Nodup) :
    ∀ mc uc w,
      (runOwners env mc uc l).2.2.count (Event.memberLookup w) ≤ 1 ∧
      (runOwners env mc uc l).2.2.count (Event.userLookup w) ≤ 1 := by
  induction l with
  | nil => intro _ _ _; simp [runOwners]
  | cons x rest ih =>
    intro mc uc w
    obtain ⟨v, kws⟩ := x
    simp only [List.map_cons, List.nodup_cons] at hnd
    rw [runOwners]
    simp only [List.count_append]
    by_cases hvw : w = v
    · subst hvw
      have hblock := ownerStep_count env mc uc w kws w
      have hrest1 : (runOwners env (ownerStep env mc uc w kws).1
          (ownerStep env mc uc w kws).2.1 rest).2.2.count (Event.memberLookup w) = 0 := by
        rw [List.count_eq_zero]
        intro hmem
        exact hnd.1 (runOwners_eventUid env rest _ _ _ hmem)
      have hrest2 : (runOwners env (ownerStep env mc uc w kws).1
          (ownerStep env mc uc w kws).2.1 rest).2.2.count (Event.userLookup w) = 0 := by
        rw [List.count_eq_zero]
        intro hmem
        exact hnd.1 (runOwners_eventUid env rest _ _ _ hmem)
      omega
    · have hblock1 : (ownerStep env mc uc v kws).2.2.count (Event.memberLookup w) = 0 := by
        rw [List.count_eq_zero]
        intro hmem
        exact hvw (ownerStep_eventUid env mc uc v kws _ hmem)
      have hblock2 : (ownerStep env mc uc v kws).2.2.count (Event.userLookup w) = 0 := by
        rw [List.count_eq_zero]
        intro hmem
        exact hvw (ownerStep_eventUid env mc uc v kws _ hmem)
      have := ih hnd.2 (ownerStep env mc uc v kws).1 (ownerStep env mc uc v kws).2.1 w
      omega

lemma applyUpd_mem {c : Cache} {uid : Nat} {x : Nat × Option Nat}
    (upd : Option (Option Nat)) (hx : x ∈ c) : x ∈ applyUpd c uid upd := by
  cases upd with
  | none => exact hx
  | some v => exact List.mem_cons_of_mem _ hx

lemma applyUpd_keys {c : Cache} {uid w : Nat} (upd : Option (Option Nat))
    (hw : w ∈ (applyUpd c uid upd).map Prod.fst) : w = uid ∨ w ∈ c.map Prod.fst := by
  cases upd with
  | none => exact Or.inr hw
  | some v =>
    simp only [applyUpd, List.map_cons, List.mem_cons] at hw
    exact hw

lemma runOwners_mcache_mono (env : Env) (l : List (Nat × List (List Nat))) :
    ∀ mc uc x, x ∈ mc → x ∈ (runOwners env mc uc l).1 := by
  induction l with
  | nil => intro _ _ _ hx; exact hx
  | cons y rest ih =>
    intro mc uc x hx
    obtain ⟨uid, kws⟩ := y
    rw [runOwners]
    apply ih
    rw [ownerStep_abs]
    exact applyUpd_mem _ hx

/-- With a member-cache miss, the block always writes the (possibly absent)
member-resolution result into the member cache. -/
lemma ownerStepAbs_mcU (env : Env) (uid : Nat) (kws : List (List Nat))
    (uv : Option Nat) :
    (ownerStepAbs env uid kws none uv).1 = some (resolveMemberFull env uid) := by
  cases hrm : resolveMemberFull env uid with
  | none => simp [ownerStepAbs, hrm]
  | some m =>
    cases hcv : env.canView m with
    | false => simp [ownerStepAbs, hrm, hcv]
    | true =>
      cases uv with
      | some u => simp [ownerStepAbs, hrm, hcv]
      | none =>
        cases hru : resolveUserFull env uid with
        | some u => simp [ownerStepAbs, hrm, hcv, hru]
        | none => simp [ownerStepAbs, hrm, hcv, hru]

/-- Each matched owner ends the pass with a member-cache entry holding their
resolution result — including `none` when resolution failed. -/
lemma runOwners_mcache_entry (env : Env) (l : List (Nat × List (List Nat))) :
    ∀ mc uc uid kws, (l.map Prod.fst).Nodup → uid ∉ mc.map Prod.fst →
      (uid, kws) ∈ l →
      (uid, resolveMemberFull env uid) ∈ (runOwners env mc uc l).1 := by
  induction l with
  | nil => intro _ _ _ _ _ _ h; simp at h
  | cons y rest ih =>
    intro mc uc uid kws hnd hmc hmem
    obtain ⟨v, ks⟩ := y
    simp only [List.map_cons, List.nodup_cons] at hnd
    rw [runOwners]
    rcases List.mem_cons.mp hmem with heq | hmem
    · have hv : v = uid := congrArg Prod.fst heq.symm
      subst hv
      have hflat : flatGet mc v = none := flatGet_eq_none_of_not_mem mc v hmc
      apply runOwners_mcache_mono
      rw [ownerStep_abs, hflat, ownerStepAbs_mcU]
      exact List.mem_cons_self _ _
    · have huid : uid ∈ rest.map Prod.fst :=
        List.mem_map.mpr ⟨(uid, kws), hmem, rfl⟩
      have hvne : v ≠ uid := fun h => hnd.1 (h ▸ huid)
      apply ih _ _ uid kws hnd.2 _ hmem
      intro hk
      rw [ownerStep_abs] at hk
      rcases applyUpd_keys _ hk with h | h
      · exact hvne h.symm
      · exact hmc h

/-- C7: within one pass over a Match Result with distinct owners (as the
engine's mapping guarantees), member resolution and user resolution fire at
most once per owner, and the per-pass member cache records each matched
owner's resolution result, negative results included. -/
theorem C7_per_pass_memoization (env : Env) (matched : List (Nat × List (List Nat)))
    (hnd : (matched.map Prod.fst).Nodup) :
    (∀ uid, (dispatchTrace env matched).count (Event.memberLookup uid) ≤ 1 ∧
            (dispatchTrace env matched).count (Event.userLookup uid) ≤ 1) ∧
    (∀ uid kws, (uid, kws) ∈ matched →
      (uid, resolveMemberFull env uid) ∈ (dispatch env matched).1) := by
  constructor
  · intro uid
    exact runOwners_count env matched hnd [] [] uid
  · intro uid kws hmem
    exact runOwners_mcache_entry env matched [] [] uid kws hnd (by simp) hmem

/-- A dispatch environment for the C7 witness in which member resolution
fails (both lookup and fetch miss). -/
def env7 : Env :=
  ⟨fun _ => none, fun _ => .notFound, fun _ => true,
   fun _ => some 66, fun _ => .notFound, fun _ _ => true⟩

/-- Witness for C7: an owner matched via two keywords triggers at most one
member lookup and one user lookup (here with `env6`, where everything
resolves), and with `env7`, where the member is absent, the negative result
is still recorded in the member cache. -/
theorem C7_per_pass_memoization_witness :
    ((dispatchTrace env6 [(9, [strN "a", strN "x"])]).count (Event.memberLookup 9) ≤ 1 ∧
     (dispatchTrace env6 [(9, [strN "a", strN "x"])]).count (Event.userLookup 9) ≤ 1) ∧
    (9, none) ∈ (dispatch env7 [(9, [strN "a", strN "x"])]).1 := by
  have h1 := (C7_per_pass_memoization env6 [(9, [strN "a", strN "x"])] (by decide)).1 9
  have h2 := (C7_per_pass_memoization env7 [(9, [strN "a", strN "x"])] (by decide)).2
    9 [strN "a", strN "x"] (by simp)
  exact ⟨h1, h2⟩

/-! ## C1: the plain-word matcher against the spec's maximal-run property -/

lemma compileMatch_plain (k t : List Nat) (hh : containsHangul k = false) :
    compileMatch k t = plainWordMatch k t := by
  simp [compileMatch, hh]

lemma compileMatch_hangul (k t : List Nat) (hh : containsHangul k = true) :
    compileMatch k t = hangulMatch k t := by
  simp [compileMatch, hh]

lemma isWordN_lowerN (n : Nat) : isWordN (lowerN n) = isWordN n := by
  unfold lowerN
  split
  · next h =>
    have h1 : isWordN (n + 32) = true := by
      simp only [isWordN, decide_eq_true_eq]
      omega
    have h2 : isWordN n = true := by
      simp only [isWordN, decide_eq_true_eq]
      omega
    rw [h1, h2]
  · rfl

/-- Case-insensitively equal texts are word characters together. -/
lemma word_transfer (a b : List Nat) (hci : lowerL a = lowerL b)
    (hb : ∀ c ∈ b, isWordN c = true) : ∀ c ∈ a, isWordN c = true := by
  intro c hc
  have hmem : lowerN c ∈ lowerL b := hci ▸ List.mem_map_of_mem lowerN hc
  obtain ⟨d, hd, hde⟩ := List.mem_map.mp hmem
  rw [← isWordN_lowerN c, ← hde, isWordN_lowerN d]
  exact hb d hd

lemma isWordIdx_some {t : List Nat} {j c : Nat} (h : t[j]? = some c) :
    isWordIdx t j = isWordN c := by
  simp [isWordIdx, h]

lemma isWordIdx_none {t : List Nat} {j : Nat} (h : t.length ≤ j) :
    isWordIdx t j = false := by
  simp [isWordIdx, List.getElem?_eq_none h]

lemma seg_getElem (t : List Nat) (i n j : Nat) (hj : j < n) :
    (seg t i n)[j]? = t[i + j]? := by
  simp [seg, List.getElem?_take, hj, List.getElem?_drop]

lemma seg_length (t : List Nat) (i n : Nat) :
    (seg t i n).length = min n (t.length - i) := by
  simp [seg]

/-- A full-length segment of word characters makes every inner position of
the text a word position. -/
lemma isWordIdx_of_seg (t : List Nat) (i n j : Nat) (hj : j < n)
    (hlen : (seg t i n).length = n)
    (hw : ∀ c ∈ seg t i n, isWordN c = true) : isWordIdx t (i + j) = true := by
  have h1 : (seg t i n)[j]? = t[i + j]? := seg_getElem t i n j hj
  have h2 : j < (seg t i n).length := by rw [hlen]; exact hj
  rw [List.getElem?_eq_getElem h2] at h1
  rw [isWordIdx_some h1.symm]
  exact hw _ (List.getElem_mem _)

lemma plainWordMatch_iff (k t : List Nat) :
    plainWordMatch k t = true ↔
      ∃ i, i < t.length + 1 ∧ lowerL (seg t i k.length) = lowerL k ∧
        bnd t i = true ∧ bnd t (i + k.length) = true := by
  simp [plainWordMatch, List.any_eq_true, List.mem_range, ciEqb, Bool.and_eq_true,
    decide_eq_true_eq, and_assoc]

/-- C1 (amended): restricted to nonempty keywords consisting of word
characters (and containing no Hangul syllable), the compiled plain-word
matcher matches a text exactly when the text contains the keyword as a
maximal run of word characters equal to it case-insensitively. -/
theorem C1_plain_word_amended (k t : List Nat)
    (hh : containsHangul k = false) (hne : k ≠ [])
    (hw : ∀ c ∈ k, isWordN c = true) :
    compileMatch k t = true ↔ specPlainOccur k t := by
  rw [compileMatch_plain k t hh]
  have hklen : 0 < k.length := List.length_pos.mpr hne
  constructor
  · intro h
    obtain ⟨i, hlt, hci, hb1, hb2⟩ := (plainWordMatch_iff k t).mp h
    have hseglen : (seg t i k.length).length = k.length := by
      have := congrArg List.length hci
      simpa [lowerL] using this
    have hmin := seg_length t i k.length
    rw [hseglen] at hmin
    have hle : i + k.length ≤ t.length := by
      rw [Nat.min_def] at hmin
      split at hmin <;> omega
    have hwseg : ∀ c ∈ seg t i k.length, isWordN c = true := word_transfer _ _ hci hw
    have hfirst : isWordIdx t i = true := by
      have := isWordIdx_of_seg t i k.length 0 hklen hseglen hwseg
      rwa [Nat.add_zero] at this
    have hlast : isWordIdx t (i + k.length - 1) = true := by
      have := isWordIdx_of_seg t i k.length (k.length - 1) (by omega) hseglen hwseg
      rwa [show i + (k.length - 1) = i + k.length - 1 from by omega] at this
    refine ⟨i, hlt, hle, hci, hwseg, ?_, ?_⟩
    · by_cases hi : i = 0
      · exact Or.inl hi
      · right
        by_contra hc
        have hL : isWordIdx t (i - 1) = true := by
          cases h' : isWordIdx t (i - 1)
          · exact absurd h' hc
          · rfl
        rw [bnd, if_neg hi, hL, hfirst] at hb1
        simp at hb1
    · right
      by_contra hc
      have hR : isWordIdx t (i + k.length) = true := by
        cases h' : isWordIdx t (i + k.length)
        · exact absurd h' hc
        · rfl
      rw [bnd, if_neg (by omega : ¬ (i + k.length = 0)), hlast, hR] at hb2
      simp at hb2
  · rintro ⟨i, hlt, hle, hci, hwseg, hlmax, hrmax⟩
    apply (plainWordMatch_iff k t).mpr
    have hseglen : (seg t i k.length).length = k.length := by
      rw [seg_length, Nat.min_def]
      split <;> omega
    have hfirst : isWordIdx t i = true := by
      have := isWordIdx_of_seg t i k.length 0 hklen hseglen hwseg
      rwa [Nat.add_zero] at this
    have hlast : isWordIdx t (i + k.length - 1) = true := by
      have := isWordIdx_of_seg t i k.length (k.length - 1) (by omega) hseglen hwseg
      rwa [show i + (k.length - 1) = i + k.length - 1 from by omega] at this
    refine ⟨i, hlt, hci, ?_, ?_⟩
    · have hL : (if i = 0 then false else isWordIdx t (i - 1)) = false := by
        by_cases hi : i = 0
        · rw [if_pos hi]
        · rw [if_neg hi]
          rcases hlmax with hi' | hi'
          · exact absurd hi' hi
          · exact hi'
      rw [bnd, hL, hfirst]
      rfl
    · have hR : isWordIdx t (i + k.length) = false := by
        rcases hrmax with he | hf
        · exact isWordIdx_none (by omega)
        · exact hf
      rw [bnd, if_neg (by omega : ¬ (i + k.length = 0)), hlast, hR]
      rfl

/-- Counterexample to C1 as stated: the keyword `"-"` contains no Hangul, and
the compiled plain matcher `\b\-\b` finds it in `"a-b"`, yet `"a-b"` contains
no maximal run of word characters equal to `"-"` (a run of word characters
cannot contain `-`); the empty keyword similarly matches `"ab"` while no run
equals it. -/
theorem C1_plain_word_counterexample :
    containsHangul (strN "-") = false ∧
    compileMatch (strN "-") (strN "a-b") = true ∧
    ¬ specPlainOccur (strN "-") (strN "a-b") ∧
    containsHangul [] = false ∧
    compileMatch [] (strN "ab") = true ∧
    ¬ specPlainOccur [] (strN "ab") := by
  decide

/-- Witness for the amended C1 at the spec's own example: keyword `"cat"`,
text `"a cat."`. -/
theorem C1_plain_word_amended_witness :
    compileMatch (strN "cat") (strN "a cat.") = true ↔
      specPlainOccur (strN "cat") (strN "a cat.") :=
  C1_plain_word_amended (strN "cat") (strN "a cat.") (by decide) (by decide) (by decide)

/-! ## C2: the agglutinative matcher and particle stacking -/

lemma ciPrefix_self_append (k x : List Nat) : ciPrefix k (k ++ x) = true := by
  rw [ciPrefix, List.isPrefixOf_iff_prefix]
  rw [show lowerL (k ++ x) = lowerL k ++ lowerL x from List.map_append lowerN k x]
  exact List.prefix_append _ _

/-- Zero to `fuel` stacked particles followed by nothing always satisfy the
particle-stacking suffix pattern. -/
lemma suffixOk_particles (ps : List (List Nat)) :
    ∀ fuel, ps.length ≤ fuel → (∀ p ∈ ps, p ∈ KOREAN_PARTICLES) →
      suffixOk fuel ps.flatten = true := by
  induction ps with
  | nil =>
    intro fuel _ _
    cases fuel with
    | zero => rfl
    | succ f => rfl
  | cons p rest ih =>
    intro fuel hlen hmem
    cases fuel with
    | zero => simp at hlen
    | succ f =>
      rw [List.flatten_cons, suffixOk]
      have hany : (KOREAN_PARTICLES.any fun q =>
          ciPrefix q (p ++ rest.flatten) && suffixOk f ((p ++ rest.flatten).drop q.length)) =
            true := by
        apply List.any_eq_true.mpr
        refine ⟨p, hmem p (List.mem_cons_self _ _), ?_⟩
        rw [Bool.and_eq_true]
        refine ⟨ciPrefix_self_append p rest.flatten, ?_⟩
        rw [List.drop_left]
        exact ih f (by simp only [List.length_cons] at hlen; omega)
          fun q hq => hmem q (List.mem_cons_of_mem _ hq)
      rw [hany, Bool.or_true]

lemma any_congr_mem {α : Type} (l : List α) (p q : α → Bool)
    (h : ∀ x ∈ l, p x = q x) : l.any p = l.any q := by
  induction l with
  | nil => rfl
  | cons a rest ih =>
    rw [List.any_cons, List.any_cons, h a (List.mem_cons_self _ _),
      ih fun x hx => h x (List.mem_cons_of_mem _ hx)]

/-- On a remainder made of word characters only, the suffix pattern can end
only at the very end of the text, so it succeeds exactly when the whole
remainder decomposes into at most `fuel` particles. -/
lemma suffixOk_eq_decompOk : ∀ (f : Nat) (s : List Nat),
    (∀ c ∈ s, isWordN c = true) → suffixOk f s = decompOk f s := by
  intro f
  induction f with
  | zero =>
    intro s hs
    cases s with
    | nil => rfl
    | cons c rest =>
      have hc := hs c (List.mem_cons_self _ _)
      simp [suffixOk, decompOk, noWordHead, hc]
  | succ f ih =>
    intro s hs
    cases s with
    | nil => rfl
    | cons c rest =>
      have hc := hs c (List.mem_cons_self _ _)
      rw [suffixOk, decompOk]
      rw [show noWordHead (c :: rest) = false by simp [noWordHead, hc]]
      rw [show (c :: rest).isEmpty = false from rfl]
      rw [Bool.false_or, Bool.false_or]
      apply any_congr_mem
      intro p _
      cases hpre : ciPrefix p (c :: rest) with
      | false => rw [Bool.false_and, Bool.false_and]
      | true =>
        rw [Bool.true_and, Bool.true_and]
        exact ih _ fun d hd => hs d (List.drop_subset _ _ hd)

/-- C2: for a Hangul keyword, the agglutinative matcher accepts the keyword
followed by any stack of at most three recognized particles; it rejects the
keyword immediately followed by a word-character suffix with no such particle
decomposition (stated for keywords made of word characters, as Hangul
keywords are); and the spec's concrete examples behave as stated. -/
theorem C2_agglutinative_particles :
    (∀ (k : List Nat) (ps : List (List Nat)), containsHangul k = true →
      ps.length ≤ 3 → (∀ p ∈ ps, p ∈ KOREAN_PARTICLES) →
      compileMatch k (k ++ ps.flatten) = true) ∧
    (∀ (k s : List Nat), containsHangul k = true → (∀ c ∈ k, isWordN c = true) →
      s ≠ [] → (∀ c ∈ s, isWordN c = true) → decompOk 3 s = false →
      compileMatch k (k ++ s) = false) ∧
    compileMatch (strN "사과") (strN "사과는 맛있다") = true ∧
    compileMatch (strN "사과") (strN "사과주스") = false := by
  refine ⟨?_, ?_, by decide, by decide⟩
  · intro k ps hk hlen hmem
    rw [compileMatch_hangul _ _ hk, hangulMatch]
    apply List.any_eq_true.mpr
    refine ⟨0, by rw [List.mem_range]; omega, ?_⟩
    rw [Bool.and_eq_true, Bool.and_eq_true]
    refine ⟨⟨rfl, ?_⟩, ?_⟩
    · rw [List.drop_zero]
      exact ciPrefix_self_append k ps.flatten
    · rw [Nat.zero_add, List.drop_left]
      exact suffixOk_particles ps 3 hlen hmem
  · intro k s hk hkw hs hsw hdec
    rw [compileMatch_hangul _ _ hk]
    cases hmatch : hangulMatch k (k ++ s) with
    | false => rfl
    | true =>
      exfalso
      rw [hangulMatch] at hmatch
      obtain ⟨i, hi, hpred⟩ := List.any_eq_true.mp hmatch
      rw [Bool.and_eq_true, Bool.and_eq_true] at hpred
      obtain ⟨⟨hnb, _⟩, hsuf⟩ := hpred
      rw [List.mem_range] at hi
      by_cases hi0 : i = 0
      · subst hi0
        rw [Nat.zero_add, List.drop_left, suffixOk_eq_decompOk 3 s hsw, hdec] at hsuf
        exact Bool.noConfusion hsuf
      · have hlen : 0 < (k ++ s).length := by
          rw [List.length_append]
          have := List.length_pos.mpr hs
          omega
        have hidx : i - 1 < (k ++ s).length := by omega
        have hword : isWordIdx (k ++ s) (i - 1) = true := by
          rw [isWordIdx_some (List.getElem?_eq_getElem hidx)]
          have hmem := List.getElem_mem hidx
          rcases List.mem_append.mp hmem with h' | h'
          · exact hkw _ h'
          · exact hsw _ h'
        rw [noWordBefore, if_neg hi0, hword] at hnb
        exact Bool.noConfusion hnb

/-- Witness for C2: `"사과"` plus the stacked particles `"는" + "를"` matches;
`"사과"` directly followed by the word suffix `"주스"` (no particle
decomposition) does not. -/
theorem C2_agglutinative_particles_witness :
    compileMatch (strN "사과") (strN "사과" ++ [strN "는", strN "를"].flatten) = true ∧
    compileMatch (strN "사과") (strN "사과" ++ strN "주스") = false :=
  ⟨C2_agglutinative_particles.1 (strN "사과") [strN "는", strN "를"]
    (by decide) (by decide) (by decide),
   C2_agglutinative_particles.2.1 (strN "사과") (strN "주스")
    (by decide) (by decide) (by decide) (by decide) (by decide)⟩

end KeywordBot
